import Mathlib

/-!
Shallow embedding of `src/main.py` (class `RingSystem`), the computational core of the
fourier-transform winding visualizer.  Python floats are modelled as real numbers (exact
arithmetic); the matplotlib rendering calls (`setup_plot`, slider, `set_val`, axis limits)
are external collaborators and are not part of the state, but every numeric quantity that
`draw_points` computes and hands to the renderer is modelled in `DrawOutput`.
-/

open scoped Classical

noncomputable section

/-- State of the Python `RingSystem` object: the phase shift and period set by
`set_period`, the sample coordinate lists `x_data`/`y_data`, and the dict
`fourier_data` mapping a period to the centroid pair `[mean_x, mean_y]`.
The dict is modelled as an insertion-ordered association list, as in CPython. -/
structure RingSystem where
  shift : ℝ
  period : ℝ
  x_data : List ℝ
  y_data : List ℝ
  fourier_data : List (ℝ × ℝ × ℝ)

namespace RingSystem

/-- Python `max(l)` on a nonempty list of floats; `max` of an empty list raises in
Python (unreachable under the guards of `draw_points`), modelled as `0` here. -/
def listMax : List ℝ → ℝ
  | [] => 0
  | h :: t => t.foldl max h

/-- Python `min(l)` on a nonempty list of floats; empty list modelled as `0`. -/
def listMin : List ℝ → ℝ
  | [] => 0
  | h :: t => t.foldl min h

/-- Python dict assignment `m[k] = v`: replaces the value of an existing key in
place, otherwise appends the new binding at the end (CPython insertion order). -/
def dictInsert (m : List (ℝ × ℝ × ℝ)) (k : ℝ) (v : ℝ × ℝ) : List (ℝ × ℝ × ℝ) :=
  match m with
  | [] => [(k, v)]
  | (k0, v0) :: t => if k0 = k then (k, v) :: t else (k0, v0) :: dictInsert t k v

/-- Python dict lookup `m[k]`, as an `Option`. -/
def dictLookup (m : List (ℝ × ℝ × ℝ)) (k : ℝ) : Option (ℝ × ℝ) :=
  match m with
  | [] => none
  | (k0, v0) :: t => if k0 = k then some v0 else dictLookup t k

/-- Insert one keyed entry into a list already sorted by key (helper for `sortByKey`). -/
def insertSorted (p : ℝ × ℝ × ℝ) : List (ℝ × ℝ × ℝ) → List (ℝ × ℝ × ℝ)
  | [] => [p]
  | q :: t => if p.1 ≤ q.1 then p :: q :: t else q :: insertSorted p t

/-- Python `[(x, m[x]) for x in sorted(m.keys())]`: the dict entries ordered by
ascending key. -/
def sortByKey : List (ℝ × ℝ × ℝ) → List (ℝ × ℝ × ℝ)
  | [] => []
  | p :: t => insertSorted p (sortByKey t)

/-- Python `np.arange(start, stop, step)`: the values `start + k * step` for
`k = 0, 1, ...`, of length `⌈(stop - start) / step⌉` (and empty when that
quantity is nonpositive).  Requires `step ≠ 0` in numpy; the `step = 0` case is
unreachable from `add_function` under its preconditions. -/
def arange (start stop step : ℝ) : List ℝ :=
  (List.range ⌈(stop - start) / step⌉₊).map (fun k : ℕ => start + (k : ℝ) * step)

/-- Method `RingSystem.coordinate_to_ring`: computes
`x_radian = ((x + shift) / period) * 2 * pi` and
`coordinate = y * complex(e, 0) ** complex(0, x_radian)`, returning
`(coordinate.real, coordinate.imag)`.  The complex power `e ** (i * θ)` is the
complex power function on `ℂ`. -/
def coordinate_to_ring (shift period x y : ℝ) : ℝ × ℝ :=
  let x_radian : ℝ := ((x + shift) / period) * 2 * Real.pi
  let coordinate : ℂ := (y : ℂ) * ((Real.exp 1 : ℝ) : ℂ) ^ (Complex.I * (x_radian : ℂ))
  (coordinate.re, coordinate.im)

/-- Method `RingSystem.set_period(period, shift)`: stores `shift` and `period`;
performs no validation.  (The `if self.fig` slider refresh is rendering glue.) -/
def set_period (s : RingSystem) (period : ℝ) (shift : ℝ) : RingSystem :=
  ⟨shift, period, s.x_data, s.y_data, s.fourier_data⟩

/-- Method `RingSystem.add_point(x, y)`: appends `x` to `x_data` and `y` to `y_data`. -/
def add_point (s : RingSystem) (x y : ℝ) : RingSystem :=
  ⟨s.shift, s.period, s.x_data ++ [x], s.y_data ++ [y], s.fourier_data⟩

/-- Method `RingSystem.reset_points()`: clears `x_data`, `y_data` and `fourier_data`. -/
def reset_points (s : RingSystem) : RingSystem :=
  ⟨s.shift, s.period, [], [], []⟩

/-- Method `RingSystem.add_function(from_x, to_x, samples, f)`: resets the points,
computes `step = (to_x - from_x) / samples`, and adds `(x, f x)` for every `x`
in `np.arange(from_x, to_x + step, step)`. -/
def add_function (s : RingSystem) (from_x to_x : ℝ) (samples : ℕ) (f : ℝ → ℝ) :
    RingSystem :=
  let s1 := reset_points s
  let step := (to_x - from_x) / (samples : ℝ)
  (arange from_x (to_x + step) step).foldl (fun t x => add_point t x (f x)) s1

/-- Constructor `RingSystem.__init__`: `reset_points()` then `set_period()`; the
plot figure is not yet created. -/
def initSystem : RingSystem :=
  ⟨0, 0, [], [], []⟩

/-- Loop body data of `draw_points`: the ring coordinates of the samples,
`coordinate_to_ring(x_data[i], y_data[i])` for each index `i` of `x_data`.
Python raises `IndexError` when `y_data` is shorter than `x_data` (unreachable,
the list lengths are invariant-equal); the model pads with `0` there. -/
def ringPoints (shift period : ℝ) (xs ys : List ℝ) : List (ℝ × ℝ) :=
  (List.range xs.length).map
    (fun i => coordinate_to_ring shift period (xs.getD i 0) (ys.getD i 0))

/-- Accumulators `mean_x`, `mean_y` of the `draw_points` loop: each ring
coordinate contributes `x / len(x_data)` to `mean_x` and `y / len(y_data)` to
`mean_y`. -/
def centroid (shift period : ℝ) (xs ys : List ℝ) : ℝ × ℝ :=
  (((ringPoints shift period xs ys).map (fun p => p.1 / (xs.length : ℝ))).sum,
   ((ringPoints shift period xs ys).map (fun p => p.2 / (ys.length : ℝ))).sum)

/-- Numeric data `draw_points` hands to the renderer: the ring plot vectors, the
centroid scatter point, the axis boundary `max(y_data)`, the sorted fourier
curve (from which the real and imaginary traces are projected), and the
highlighted fourier scatter point `(period, max(fourier_data[period]))`. -/
structure DrawOutput where
  x_ring_vec : List ℝ
  y_ring_vec : List ℝ
  centroid : ℝ × ℝ
  boundary : ℝ
  fourier_list : List (ℝ × ℝ × ℝ)
  marker : ℝ × ℝ

/-- Method `RingSystem.draw_points()`: if `x_data` is empty, nothing happens;
otherwise, when the current period is `0`, the period is derived as
`max(x_data) - min(x_data)` and the shift as `-min(x_data)`; every sample is
mapped through `coordinate_to_ring`, the running means form the centroid, the
boundary is `max(y_data)`, and `fourier_data[period]` is assigned the centroid.
Returns the updated state together with the renderer data. -/
def draw_points (s : RingSystem) : RingSystem × Option DrawOutput :=
  match s.x_data with
  | [] => (s, none)
  | _ :: _ =>
    let period := if s.period = 0 then listMax s.x_data - listMin s.x_data else s.period
    let shift := if s.period = 0 then -listMin s.x_data else s.shift
    let pts := ringPoints shift period s.x_data s.y_data
    let c := centroid shift period s.x_data s.y_data
    let boundary := listMax s.y_data
    let fourier := dictInsert s.fourier_data period c
    let v := (dictLookup fourier period).getD (0, 0)
    (⟨shift, period, s.x_data, s.y_data, fourier⟩,
     some ⟨pts.map Prod.fst, pts.map Prod.snd, c, boundary, sortByKey fourier,
           (period, max v.1 v.2)⟩)

/-- Unfolded body of `draw_points` past the period-derivation step, at an
arbitrary resolved shift and period (proof-layer restatement used to reason
about both branches of `draw_points` uniformly). -/
def drawResult (shift period : ℝ) (s : RingSystem) : RingSystem × Option DrawOutput :=
  (⟨shift, period, s.x_data, s.y_data,
    dictInsert s.fourier_data period (centroid shift period s.x_data s.y_data)⟩,
   some ⟨(ringPoints shift period s.x_data s.y_data).map Prod.fst,
         (ringPoints shift period s.x_data s.y_data).map Prod.snd,
         centroid shift period s.x_data s.y_data,
         listMax s.y_data,
         sortByKey (dictInsert s.fourier_data period
           (centroid shift period s.x_data s.y_data)),
         (period,
          max ((dictLookup (dictInsert s.fourier_data period
                  (centroid shift period s.x_data s.y_data)) period).getD (0, 0)).1
              ((dictLookup (dictInsert s.fourier_data period
                  (centroid shift period s.x_data s.y_data)) period).getD (0, 0)).2)⟩)

/-- States reachable from a fresh `RingSystem()` through its public operations. -/
inductive Reachable : RingSystem → Prop
  | init : Reachable initSystem
  | add_point (s : RingSystem) (x y : ℝ) : Reachable s → Reachable (s.add_point x y)
  | add_function (s : RingSystem) (from_x to_x : ℝ) (samples : ℕ) (f : ℝ → ℝ) :
      Reachable s → Reachable (s.add_function from_x to_x samples f)
  | set_period (s : RingSystem) (p sh : ℝ) : Reachable s → Reachable (s.set_period p sh)
  | reset (s : RingSystem) : Reachable s → Reachable s.reset_points
  | draw (s : RingSystem) : Reachable s → Reachable s.draw_points.1

end RingSystem

end

namespace RingSystem

/-! Basic facts about the ring mapping. -/

/-- Python complex power: `e ** (i * θ)` is `exp (θ * i)` on `ℂ`. -/
theorem exp_one_cpow_I_mul (θ : ℝ) :
    ((Real.exp 1 : ℝ) : ℂ) ^ (Complex.I * (θ : ℂ)) = Complex.exp ((θ : ℂ) * Complex.I) := by
  rw [Complex.cpow_def_of_ne_zero (by
    rw [Complex.ofReal_exp]; exact Complex.exp_ne_zero 1)]
  rw [Complex.ofReal_exp, Complex.log_exp (by simp [Real.pi_pos]) (by simp [Real.pi_pos.le])]
  congr 1
  push_cast
  ring

/-- Closed form of `coordinate_to_ring`: the real part is `y * cos θ` and the
imaginary part is `y * sin θ`, with `θ = (x + shift) / period * 2 * pi`. -/
theorem coordinate_to_ring_eq (shift period x y : ℝ) :
    coordinate_to_ring shift period x y =
      (y * Real.cos ((x + shift) / period * 2 * Real.pi),
       y * Real.sin ((x + shift) / period * 2 * Real.pi)) := by
  simp only [coordinate_to_ring]
  rw [exp_one_cpow_I_mul, Prod.mk.injEq]
  rw [Complex.re_ofReal_mul, Complex.im_ofReal_mul,
    Complex.exp_ofReal_mul_I_re, Complex.exp_ofReal_mul_I_im]
  exact ⟨rfl, rfl⟩

/-- C1: for every finite `x`, `y`, `shift` and every `period ≠ 0`, the
ring-mapping operation `coordinate_to_ring` returns exactly the pair
`(y * cos θ, y * sin θ)` where `θ = ((x + shift) / period) * 2π`. -/
theorem ring_map_formula (x y shift period : ℝ) (hp : period ≠ 0) :
    coordinate_to_ring shift period x y =
      (y * Real.cos ((x + shift) / period * (2 * Real.pi)),
       y * Real.sin ((x + shift) / period * (2 * Real.pi))) := by
  rw [coordinate_to_ring_eq, mul_assoc]

/-- Witness for C1 at `x = 0`, `y = 1`, `shift = 0`, `period = 1`. -/
theorem ring_map_formula_witness :
    (1 : ℝ) ≠ 0 ∧
      coordinate_to_ring 0 1 0 1 =
        (1 * Real.cos ((0 + 0) / 1 * (2 * Real.pi)),
         1 * Real.sin ((0 + 0) / 1 * (2 * Real.pi))) :=
  ⟨one_ne_zero, ring_map_formula 0 1 0 1 one_ne_zero⟩

/-- C7: for every finite `x`, `y`, `shift` and every `period > 0`, the Euclidean
magnitude of the point returned by `coordinate_to_ring` equals `|y|`. -/
theorem ring_map_magnitude (x y shift period : ℝ) (hp : 0 < period) :
    Real.sqrt ((coordinate_to_ring shift period x y).1 ^ 2 +
      (coordinate_to_ring shift period x y).2 ^ 2) = |y| := by
  rw [coordinate_to_ring_eq]
  dsimp only
  have hθ := Real.sin_sq_add_cos_sq ((x + shift) / period * 2 * Real.pi)
  have h : (y * Real.cos ((x + shift) / period * 2 * Real.pi)) ^ 2 +
      (y * Real.sin ((x + shift) / period * 2 * Real.pi)) ^ 2 = y ^ 2 := by
    nlinarith [hθ]
  rw [h, Real.sqrt_sq_eq_abs]

/-- Witness for C7 at `x = 0`, `y = 1`, `shift = 0`, `period = 1`. -/
theorem ring_map_magnitude_witness :
    (0 : ℝ) < 1 ∧
      Real.sqrt ((coordinate_to_ring 0 1 0 1).1 ^ 2 +
        (coordinate_to_ring 0 1 0 1).2 ^ 2) = |(1 : ℝ)| :=
  ⟨one_pos, ring_map_magnitude 0 1 0 1 one_pos⟩

/-! Facts about `set_period` and the empty-state `draw_points`. -/

/-- C9 (amended): `set_period` performs no validation at all; for every period,
negative ones included, it simply stores the given period and shift, leaves the
samples and the frequency curve untouched, and reports no error. -/
theorem set_period_no_validation (s : RingSystem) (p sh : ℝ) :
    (s.set_period p sh).period = p ∧ (s.set_period p sh).shift = sh ∧
    (s.set_period p sh).x_data = s.x_data ∧ (s.set_period p sh).y_data = s.y_data ∧
    (s.set_period p sh).fourier_data = s.fourier_data :=
  ⟨rfl, rfl, rfl, rfl, rfl⟩

/-- Counterexample to C9 as stated: `set_period` with the negative period `-1`
completes normally, returning the state with period `-1`; no
`InvalidPeriodError` is reported anywhere in the code. -/
theorem set_period_negative_counterexample :
    RingSystem.set_period initSystem (-1) 0 =
      RingSystem.mk 0 (-1) [] [] [] ∧ (-1 : ℝ) < 0 :=
  ⟨rfl, by norm_num⟩

/-- C8: on a state with an empty sample set, `draw_points` is a no-op: it
reports no error and returns the state unchanged (samples, period, shift and
frequency curve included) with no renderer output. -/
theorem draw_points_empty_noop (s : RingSystem) (h : s.x_data = []) :
    s.draw_points = (s, none) := by
  obtain ⟨sh, p, xs, ys, fd⟩ := s
  dsimp only at h
  subst h
  rfl

/-- Witness for C8 at the freshly initialized system. -/
theorem draw_points_empty_noop_witness :
    initSystem.x_data = [] ∧ initSystem.draw_points = (initSystem, none) :=
  ⟨rfl, draw_points_empty_noop initSystem rfl⟩

/-! Facts about `add_function`. -/

/-- Folding `add_point` over a list appends all the x-values and all the
function values to the respective data lists and changes nothing else. -/
theorem foldl_add_point (f : ℝ → ℝ) (l : List ℝ) (s : RingSystem) :
    l.foldl (fun t x => t.add_point x (f x)) s =
      ⟨s.shift, s.period, s.x_data ++ l, s.y_data ++ l.map f, s.fourier_data⟩ := by
  induction l generalizing s with
  | nil => simp
  | cons a t ih =>
    rw [List.foldl_cons, ih]
    simp [add_point]

/-- Count of the `np.arange` call made by `add_function`: with
`step = (to_x - from_x) / samples`, the range from `from_x` to `to_x + step`
holds exactly `samples + 1` values, namely `from_x + k * step` for
`k = 0, ..., samples`. -/
theorem arange_step_eq (from_x to_x : ℝ) (samples : ℕ) (hs : 0 < samples)
    (hlt : from_x < to_x) :
    arange from_x (to_x + (to_x - from_x) / (samples : ℝ))
        ((to_x - from_x) / (samples : ℝ)) =
      (List.range (samples + 1)).map
        (fun k : ℕ => from_x + (k : ℝ) * ((to_x - from_x) / (samples : ℝ))) := by
  unfold arange
  congr 2
  have hd : (0 : ℝ) < to_x - from_x := by linarith
  have hns : ((samples : ℕ) : ℝ) ≠ 0 := Nat.cast_ne_zero.mpr hs.ne'
  have key : (to_x + (to_x - from_x) / (samples : ℝ) - from_x) /
      ((to_x - from_x) / (samples : ℝ)) = ((samples : ℕ) : ℝ) + 1 := by
    rw [div_eq_iff (div_ne_zero hd.ne' hns)]
    field_simp
    ring
  rw [key, show ((samples : ℕ) : ℝ) + 1 = ((samples + 1 : ℕ) : ℝ) by push_cast; ring,
    Nat.ceil_natCast]

/-- Closed form of `add_function` under its intended preconditions
(`samples > 0` and `from_x < to_x`): the prior samples and curve are cleared and
the data lists become the `samples + 1` uniform sample positions with their
function values. -/
theorem add_function_eq (s : RingSystem) (from_x to_x : ℝ) (samples : ℕ)
    (f : ℝ → ℝ) (hs : 0 < samples) (hlt : from_x < to_x) :
    s.add_function from_x to_x samples f =
      ⟨s.shift, s.period,
       (List.range (samples + 1)).map
         (fun k : ℕ => from_x + (k : ℝ) * ((to_x - from_x) / (samples : ℝ))),
       ((List.range (samples + 1)).map
         (fun k : ℕ => from_x + (k : ℝ) * ((to_x - from_x) / (samples : ℝ)))).map f,
       []⟩ := by
  show List.foldl (fun t x => t.add_point x (f x)) s.reset_points
      (arange from_x (to_x + (to_x - from_x) / (samples : ℝ))
        ((to_x - from_x) / (samples : ℝ))) = _
  rw [arange_step_eq from_x to_x samples hs hlt, foldl_add_point]
  simp [reset_points]

/-- Counterexample to C4 as stated: `add_function` from `0` to `1` with
`sampleCount = 2` generates `3` samples, not `2` (the generated x-values are
`0`, `1/2` and `1`). -/
theorem add_function_count_counterexample :
    (RingSystem.add_function initSystem 0 1 2 (fun t => t)).x_data.length = 3 ∧
      (3 : ℕ) ≠ 2 := by
  constructor
  · rw [show (RingSystem.add_function initSystem 0 1 2 fun t => t).x_data =
        (List.range (2 + 1)).map
          (fun k : ℕ => 0 + (k : ℝ) * ((1 - 0) / ((2 : ℕ) : ℝ))) from
      congrArg RingSystem.x_data
        (add_function_eq initSystem 0 1 2 (fun t => t) (by norm_num) (by norm_num))]
    simp
  · decide

/-- C4 (amended): for every prior state, `sampleCount > 0`, `fromX < toX` and
`f`, `add_function` first clears all existing samples and the frequency curve,
then generates exactly `sampleCount + 1` evenly spaced x-values covering
`[fromX, toX]` inclusive of both ends with step `(toX - fromX) / sampleCount`
(in exact arithmetic the last generated x equals `toX`; the count is one more
than the claim's `sampleCount`), and appends the sample `(x, f x)` for each
generated x in ascending order. -/
theorem add_function_generates (s : RingSystem) (from_x to_x : ℝ) (samples : ℕ)
    (f : ℝ → ℝ) (hs : 0 < samples) (hlt : from_x < to_x) :
    (s.add_function from_x to_x samples f).x_data =
        (List.range (samples + 1)).map
          (fun k : ℕ => from_x + (k : ℝ) * ((to_x - from_x) / (samples : ℝ))) ∧
      (s.add_function from_x to_x samples f).y_data =
        (s.add_function from_x to_x samples f).x_data.map f ∧
      (s.add_function from_x to_x samples f).fourier_data = [] ∧
      (s.add_function from_x to_x samples f).x_data.length = samples + 1 ∧
      from_x ∈ (s.add_function from_x to_x samples f).x_data ∧
      to_x ∈ (s.add_function from_x to_x samples f).x_data ∧
      (s.add_function from_x to_x samples f).x_data.Pairwise (· < ·) := by
  have hd : (0 : ℝ) < to_x - from_x := by linarith
  have hns : (0 : ℝ) < (samples : ℝ) := Nat.cast_pos.mpr hs
  have hstep : (0 : ℝ) < (to_x - from_x) / (samples : ℝ) := div_pos hd hns
  rw [add_function_eq s from_x to_x samples f hs hlt]
  refine ⟨rfl, rfl, rfl, by simp, ?_, ?_, ?_⟩
  · exact List.mem_map.mpr ⟨0, by simp, by simp⟩
  · refine List.mem_map.mpr ⟨samples, by simp, ?_⟩
    field_simp
  · refine List.Pairwise.map _ (fun a b hab => ?_) (List.pairwise_lt_range (samples + 1))
    have : (a : ℝ) < (b : ℝ) := Nat.cast_lt.mpr hab
    have := mul_lt_mul_of_pos_right this hstep
    linarith

/-- Witness for C4 (amended) at `fromX = 0`, `toX = 1`, `sampleCount = 1`,
`f = id`. -/
theorem add_function_generates_witness :
    (0 < 1 ∧ (0 : ℝ) < 1) ∧
      ((RingSystem.add_function initSystem 0 1 1 (fun t => t)).x_data =
          (List.range (1 + 1)).map
            (fun k : ℕ => 0 + (k : ℝ) * ((1 - 0) / ((1 : ℕ) : ℝ))) ∧
        (RingSystem.add_function initSystem 0 1 1 (fun t => t)).y_data =
          (RingSystem.add_function initSystem 0 1 1 (fun t => t)).x_data.map
            (fun t => t) ∧
        (RingSystem.add_function initSystem 0 1 1 (fun t => t)).fourier_data = [] ∧
        (RingSystem.add_function initSystem 0 1 1 (fun t => t)).x_data.length = 1 + 1 ∧
        (0 : ℝ) ∈ (RingSystem.add_function initSystem 0 1 1 (fun t => t)).x_data ∧
        (1 : ℝ) ∈ (RingSystem.add_function initSystem 0 1 1 (fun t => t)).x_data ∧
        (RingSystem.add_function initSystem 0 1 1 (fun t => t)).x_data.Pairwise
          (· < ·)) :=
  ⟨⟨Nat.one_pos, one_pos⟩,
    add_function_generates initSystem 0 1 1 (fun t => t) Nat.one_pos one_pos⟩

/-! Facts about `draw_points`. -/

/-- Resolution of `draw_points` when the guard passes and the current period is
nonzero: the stored shift and period are used unchanged. -/
theorem draw_points_of_period_ne_zero (s : RingSystem) (hne : s.x_data ≠ [])
    (hp : s.period ≠ 0) :
    s.draw_points = drawResult s.shift s.period s := by
  obtain ⟨sh, p, xs, ys, fd⟩ := s
  dsimp only at hne hp ⊢
  cases xs with
  | nil => exact absurd rfl hne
  | cons a t =>
    simp only [draw_points, if_neg hp]
    rfl

/-- Resolution of `draw_points` when the guard passes and the current period is
`0`: the period is derived as `max(x_data) - min(x_data)` and the shift as
`-min(x_data)` before any point is mapped. -/
theorem draw_points_of_period_zero (s : RingSystem) (hne : s.x_data ≠ [])
    (hp : s.period = 0) :
    s.draw_points =
      drawResult (-listMin s.x_data) (listMax s.x_data - listMin s.x_data) s := by
  obtain ⟨sh, p, xs, ys, fd⟩ := s
  dsimp only at hne hp ⊢
  cases xs with
  | nil => exact absurd rfl hne
  | cons a t =>
    simp only [draw_points, if_pos hp]
    rfl

/-- Sample data lists are never modified by `draw_points`. -/
theorem draw_points_preserves_data (s : RingSystem) :
    s.draw_points.1.x_data = s.x_data ∧ s.draw_points.1.y_data = s.y_data := by
  obtain ⟨sh, p, xs, ys, fd⟩ := s
  cases xs with
  | nil => exact ⟨rfl, rfl⟩
  | cons a t => exact ⟨rfl, rfl⟩

/-! The length invariant of the sample lists. -/

/-- C10: every public operation (`add_point`, `add_function`, `set_period`,
`reset_points`, `draw_points`) preserves the invariant that the x-coordinate
list and the y-coordinate list have equal length; in every reachable state
`len(x_data) = len(y_data)`. -/
theorem data_lengths_equal (s : RingSystem) (h : Reachable s) :
    s.x_data.length = s.y_data.length := by
  induction h with
  | init => rfl
  | add_point s x y _ ih => simp [add_point, ih]
  | add_function s fx tx n f _ _ =>
    show (RingSystem.add_function s fx tx n f).x_data.length =
      (RingSystem.add_function s fx tx n f).y_data.length
    simp only [add_function]
    rw [foldl_add_point]
    simp [reset_points]
  | set_period s p sh _ ih => simpa [set_period] using ih
  | reset s _ _ => rfl
  | draw s _ ih =>
    rw [(draw_points_preserves_data s).1, (draw_points_preserves_data s).2]
    exact ih

/-- Witness for C10 at the freshly initialized system. -/
theorem data_lengths_equal_witness :
    Reachable initSystem ∧ initSystem.x_data.length = initSystem.y_data.length :=
  ⟨Reachable.init, data_lengths_equal initSystem Reachable.init⟩

/-! Arithmetic and list helpers for the centroid and boundary facts. -/

/-- Dividing each summand is the same as dividing the sum (exact arithmetic). -/
theorem sum_map_div (l : List ℝ) (c : ℝ) :
    (l.map (fun a => a / c)).sum = l.sum / c := by
  induction l with
  | nil => simp
  | cons a t ih => simp [ih, add_div]

/-- Seed of a `max` fold is a lower bound of the result. -/
theorem le_foldl_max (l : List ℝ) (a : ℝ) : a ≤ l.foldl max a := by
  induction l generalizing a with
  | nil => simp
  | cons b t ih => exact le_trans (le_max_left a b) (ih (max a b))

/-- Result of a `max` fold is the seed or a list element. -/
theorem foldl_max_mem (l : List ℝ) (a : ℝ) : l.foldl max a = a ∨ l.foldl max a ∈ l := by
  induction l generalizing a with
  | nil => exact Or.inl rfl
  | cons b t ih =>
    rw [List.foldl_cons]
    rcases ih (max a b) with h | h
    · rcases max_choice a b with hm | hm
      · exact Or.inl (h.trans hm)
      · right
        rw [h, hm]
        exact List.mem_cons_self b t
    · exact Or.inr (List.mem_cons_of_mem b h)

/-- Every list element is bounded by a `max` fold over the list. -/
theorem mem_le_foldl_max (l : List ℝ) (a z : ℝ) (hz : z ∈ l) : z ≤ l.foldl max a := by
  induction l generalizing a with
  | nil => cases hz
  | cons b t ih =>
    rw [List.foldl_cons]
    rcases List.mem_cons.mp hz with rfl | hz'
    · exact le_trans (le_max_right a z) (le_foldl_max t (max a z))
    · exact ih (max a b) hz'

/-- Python `max` of a nonempty list returns one of its elements. -/
theorem listMax_mem (l : List ℝ) (h : l ≠ []) : listMax l ∈ l := by
  cases l with
  | nil => exact absurd rfl h
  | cons a t =>
    show t.foldl max a ∈ a :: t
    rcases foldl_max_mem t a with h1 | h1
    · rw [h1]; exact List.mem_cons_self a t
    · exact List.mem_cons_of_mem a h1

/-- Python `max` of a nonempty list bounds every element. -/
theorem le_listMax (l : List ℝ) (z : ℝ) (hz : z ∈ l) : z ≤ listMax l := by
  cases l with
  | nil => cases hz
  | cons a t =>
    show z ≤ t.foldl max a
    rcases List.mem_cons.mp hz with rfl | hz'
    · exact le_foldl_max t z
    · exact mem_le_foldl_max t a z hz'

/-! Facts about the `fourier_data` dict. -/

/-- Looking up the key just assigned returns the assigned value. -/
theorem dictLookup_dictInsert_self (m : List (ℝ × ℝ × ℝ)) (k : ℝ) (v : ℝ × ℝ) :
    dictLookup (dictInsert m k v) k = some v := by
  induction m with
  | nil => simp [dictInsert, dictLookup]
  | cons p t ih =>
    obtain ⟨k0, v0⟩ := p
    by_cases h : k0 = k
    · simp [dictInsert, dictLookup, h]
    · simp [dictInsert, dictLookup, h, ih]

/-- Keys after a dict assignment are the assigned key or prior keys. -/
theorem dictInsert_keys_subset (m : List (ℝ × ℝ × ℝ)) (k : ℝ) (v : ℝ × ℝ) (z : ℝ)
    (hz : z ∈ (dictInsert m k v).map Prod.fst) : z = k ∨ z ∈ m.map Prod.fst := by
  induction m with
  | nil =>
    simp [dictInsert] at hz
    exact Or.inl hz
  | cons p t ih =>
    obtain ⟨k0, v0⟩ := p
    by_cases h : k0 = k
    · rw [show dictInsert ((k0, v0) :: t) k v = (k, v) :: t from by
        simp [dictInsert, h]] at hz
      rcases List.mem_cons.mp hz with rfl | hz'
      · exact Or.inl rfl
      · exact Or.inr (List.mem_cons_of_mem k0 hz')
    · rw [show dictInsert ((k0, v0) :: t) k v = (k0, v0) :: dictInsert t k v from by
        simp [dictInsert, h]] at hz
      rcases List.mem_cons.mp hz with rfl | hz'
      · exact Or.inr (List.mem_cons_self z _)
      · rcases ih hz' with h1 | h1
        · exact Or.inl h1
        · exact Or.inr (List.mem_cons_of_mem k0 h1)

/-- Dict assignment preserves uniqueness of the keys. -/
theorem dictInsert_keys_nodup (m : List (ℝ × ℝ × ℝ)) (k : ℝ) (v : ℝ × ℝ)
    (h : (m.map Prod.fst).Nodup) : ((dictInsert m k v).map Prod.fst).Nodup := by
  induction m with
  | nil => simp [dictInsert]
  | cons p t ih =>
    obtain ⟨k0, v0⟩ := p
    rw [List.map_cons, List.nodup_cons] at h
    by_cases hk : k0 = k
    · subst hk
      rw [show dictInsert ((k0, v0) :: t) k0 v = (k0, v) :: t from by simp [dictInsert]]
      rw [List.map_cons, List.nodup_cons]
      exact h
    · rw [show dictInsert ((k0, v0) :: t) k v = (k0, v0) :: dictInsert t k v from by
        simp [dictInsert, hk]]
      rw [List.map_cons, List.nodup_cons]
      refine ⟨fun hmem => ?_, ih h.2⟩
      rcases dictInsert_keys_subset t k v k0 hmem with rfl | hmem'
      · exact hk rfl
      · exact h.1 hmem'

/-! The remaining claims about `draw_points`. -/

/-- C2: on a state with samples and current period `0`, `draw_points` sets the
period to `max(x_data) - min(x_data)` and the shift to `-min(x_data)` before
mapping any point (the emitted centroid is computed with the derived values);
for samples spanning x from `-10` to `10` the period resolves to `20` and the
shift to `10` (see the witness). -/
theorem auto_period_derivation (s : RingSystem) (hne : s.x_data ≠ [])
    (hp : s.period = 0) :
    s.draw_points.1.period = listMax s.x_data - listMin s.x_data ∧
      s.draw_points.1.shift = -listMin s.x_data ∧
      s.draw_points.2.map DrawOutput.centroid =
        some (centroid (-listMin s.x_data) (listMax s.x_data - listMin s.x_data)
          s.x_data s.y_data) := by
  rw [draw_points_of_period_zero s hne hp]
  exact ⟨rfl, rfl, rfl⟩

/-- Witness for C2 on samples spanning x from `-10` to `10`: the period
resolves to `20` and the shift to `10`. -/
theorem auto_period_derivation_witness :
    (([(-10 : ℝ), 10] : List ℝ) ≠ [] ∧
        (RingSystem.mk 0 0 [-10, 10] [3, 4] []).period = 0) ∧
      (RingSystem.mk 0 0 [-10, 10] [3, 4] []).draw_points.1.period = 20 ∧
      (RingSystem.mk 0 0 [-10, 10] [3, 4] []).draw_points.1.shift = 10 := by
  have h := auto_period_derivation (RingSystem.mk 0 0 [-10, 10] [3, 4] [])
    (by simp) rfl
  refine ⟨⟨by simp, rfl⟩, ?_, ?_⟩
  · rw [h.1]
    norm_num [listMax, listMin, max_def, min_def]
  · rw [h.2.1]
    norm_num [listMin, min_def]

/-- C3: on a non-empty sample set with equally long data lists and a resolved
nonzero period, the centroid computed by `draw_points` equals the arithmetic
mean of the real parts and the arithmetic mean of the imaginary parts of the
ring-mapped points of all current samples. -/
theorem centroid_is_mean (s : RingSystem) (hne : s.x_data ≠ [])
    (hlen : s.y_data.length = s.x_data.length) (hp : s.period ≠ 0) :
    s.draw_points.2.map DrawOutput.centroid =
      some
        (((ringPoints s.shift s.period s.x_data s.y_data).map Prod.fst).sum /
            (s.x_data.length : ℝ),
         ((ringPoints s.shift s.period s.x_data s.y_data).map Prod.snd).sum /
            (s.x_data.length : ℝ)) := by
  rw [draw_points_of_period_ne_zero s hne hp]
  show some (centroid s.shift s.period s.x_data s.y_data) = _
  unfold centroid
  rw [hlen, Option.some.injEq, Prod.mk.injEq]
  constructor
  · rw [← sum_map_div, List.map_map]
    rfl
  · rw [← sum_map_div, List.map_map]
    rfl

/-- Witness for C3 on a single sample `(0, 5)` with period `1` and shift `0`. -/
theorem centroid_is_mean_witness :
    (([(0 : ℝ)] : List ℝ) ≠ [] ∧
        ([(5 : ℝ)] : List ℝ).length = ([(0 : ℝ)] : List ℝ).length ∧
        (1 : ℝ) ≠ 0) ∧
      (RingSystem.mk 0 1 [0] [5] []).draw_points.2.map DrawOutput.centroid =
        some
          (((ringPoints 0 1 [0] [5]).map Prod.fst).sum / (([(0 : ℝ)] : List ℝ).length : ℝ),
           ((ringPoints 0 1 [0] [5]).map Prod.snd).sum / (([(0 : ℝ)] : List ℝ).length : ℝ)) :=
  ⟨⟨by simp, rfl, one_ne_zero⟩,
    centroid_is_mean (RingSystem.mk 0 1 [0] [5] []) (by simp) rfl one_ne_zero⟩

/-- C5: for a fixed sample set and a period `p > 0`, `set_period p` followed by
two `draw_points` calls produces an identical frequency-curve entry for key `p`
both times — the second call overwrites key `p` with the same centroid value —
and the frequency-curve keys remain unique. -/
theorem frequency_curve_idempotent (s : RingSystem) (p sh : ℝ) (hp : 0 < p)
    (hne : s.x_data ≠ []) (hnd : (s.fourier_data.map Prod.fst).Nodup) :
    dictLookup ((s.set_period p sh).draw_points.1.draw_points.1.fourier_data) p =
        dictLookup ((s.set_period p sh).draw_points.1.fourier_data) p ∧
      dictLookup ((s.set_period p sh).draw_points.1.fourier_data) p =
        some (centroid sh p s.x_data s.y_data) ∧
      (((s.set_period p sh).draw_points.1.draw_points.1.fourier_data).map
        Prod.fst).Nodup := by
  have h1 : (s.set_period p sh).draw_points = drawResult sh p (s.set_period p sh) :=
    draw_points_of_period_ne_zero (s.set_period p sh) hne hp.ne'
  have h2 : (drawResult sh p (s.set_period p sh)).1.draw_points =
      drawResult sh p (drawResult sh p (s.set_period p sh)).1 :=
    draw_points_of_period_ne_zero (drawResult sh p (s.set_period p sh)).1 hne hp.ne'
  rw [h1, h2]
  refine ⟨?_, ?_, ?_⟩
  · trans some (centroid sh p s.x_data s.y_data)
    · exact dictLookup_dictInsert_self _ p _
    · exact (dictLookup_dictInsert_self _ p _).symm
  · exact dictLookup_dictInsert_self _ p _
  · exact dictInsert_keys_nodup _ p _ (dictInsert_keys_nodup _ p _ hnd)

/-- Witness for C5 on a single sample `(0, 1)` with `p = 1`, `sh = 0`. -/
theorem frequency_curve_idempotent_witness :
    ((0 : ℝ) < 1 ∧ ([(0 : ℝ)] : List ℝ) ≠ [] ∧
        (([] : List (ℝ × ℝ × ℝ)).map Prod.fst).Nodup) ∧
      dictLookup (((RingSystem.mk 0 0 [0] [1] []).set_period 1
          0).draw_points.1.draw_points.1.fourier_data) 1 =
        dictLookup (((RingSystem.mk 0 0 [0] [1] []).set_period 1
          0).draw_points.1.fourier_data) 1 ∧
      dictLookup (((RingSystem.mk 0 0 [0] [1] []).set_period 1
          0).draw_points.1.fourier_data) 1 = some (centroid 0 1 [0] [1]) ∧
      ((((RingSystem.mk 0 0 [0] [1] []).set_period 1
          0).draw_points.1.draw_points.1.fourier_data).map Prod.fst).Nodup :=
  ⟨⟨one_pos, by simp, by simp⟩,
    (frequency_curve_idempotent (RingSystem.mk 0 0 [0] [1] []) 1 0 one_pos
      (by simp) (by simp)).1,
    (frequency_curve_idempotent (RingSystem.mk 0 0 [0] [1] []) 1 0 one_pos
      (by simp) (by simp)).2.1,
    (frequency_curve_idempotent (RingSystem.mk 0 0 [0] [1] []) 1 0 one_pos
      (by simp) (by simp)).2.2⟩

/-- C6 (amended): the boundary scalar produced by `draw_points` for axis
scaling is `max(y_data)` — the maximum of the signed y values, which is a
member of `y_data` and an upper bound for it — not the maximum of `|y|`. -/
theorem boundary_is_max_y (s : RingSystem) (hne : s.x_data ≠ [])
    (hyne : s.y_data ≠ []) :
    s.draw_points.2.map DrawOutput.boundary = some (listMax s.y_data) ∧
      listMax s.y_data ∈ s.y_data ∧ ∀ z ∈ s.y_data, z ≤ listMax s.y_data := by
  refine ⟨?_, listMax_mem s.y_data hyne, fun z hz => le_listMax s.y_data z hz⟩
  by_cases hp : s.period = 0
  · rw [draw_points_of_period_zero s hne hp]; rfl
  · rw [draw_points_of_period_ne_zero s hne hp]; rfl

/-- Witness for C6 (amended) on samples `[(0, 3), (1, 4)]` with period `1`. -/
theorem boundary_is_max_y_witness :
    (([(0 : ℝ), 1] : List ℝ) ≠ [] ∧ ([(3 : ℝ), 4] : List ℝ) ≠ []) ∧
      (RingSystem.mk 0 1 [0, 1] [3, 4] []).draw_points.2.map DrawOutput.boundary =
          some (listMax [3, 4]) ∧
        listMax [3, 4] ∈ ([(3 : ℝ), 4] : List ℝ) ∧
        ∀ z ∈ ([(3 : ℝ), 4] : List ℝ), z ≤ listMax [3, 4] :=
  ⟨⟨by simp, by simp⟩,
    boundary_is_max_y (RingSystem.mk 0 1 [0, 1] [3, 4] []) (by simp) (by simp)⟩

/-- Counterexample to C6 as stated: for samples with y-values `-2` and `1`, the
boundary produced by `draw_points` is `1` (the plain maximum), while the
maximum of `|y|` over the samples is `2`. -/
theorem boundary_counterexample :
    (RingSystem.mk 0 1 [0, 1] [-2, 1] []).draw_points.2.map DrawOutput.boundary =
        some 1 ∧
      listMax (([(-2 : ℝ), 1] : List ℝ).map (fun z => |z|)) = 2 ∧ (1 : ℝ) ≠ 2 := by
  refine ⟨?_, ?_, by norm_num⟩
  · rw [draw_points_of_period_ne_zero _ (by simp) (by norm_num)]
    show some (listMax [-2, 1]) = some 1
    norm_num [listMax, max_def]
  · norm_num [listMax, max_def]

end RingSystem
